import Mathlib

/-!
Shallow embedding of the editing core of the Axiom terminal text editor
(src/editor/buffer.py, src/editor/syntax.py, src/editor/core.py).

Lines of text are modelled as `List Char`; a Python string slice
`s[a:b]` (with non-negative bounds) becomes `(s.drop a).take (b - a)`,
which clamps exactly like Python slicing does.  Python `int` parameters
that can be negative (line/column numbers handed to buffer methods,
scroll offsets) are modelled as `Int`.  The regex engine of Python's
`re` module is not re-implemented: the pattern tables of the syntax
highlighter are abstracted by the list of matches they produce (each a
`start`/`stop`/`color`/`priority` record, as `re.finditer` hands them to
`_apply_patterns`), and the word-boundary searches built from
`re.escape(pattern)` are modelled directly by their literal-plus-`\b`
semantics.
-/

/-! ### Python string primitives used by buffer.py -/

/-- Python `str.lower`, per character (as used on patterns and lines). -/
def pyLower (l : List Char) : List Char := l.map Char.toLower

/-- Python slice `s[a:b]` for non-negative `a`, `b` (clamping, like Python). -/
def sliceL (l : List Char) (a b : Nat) : List Char := (l.drop a).take (b - a)

/-- All start positions at which `pat` occurs in the list, in increasing
order.  This is the fused form of the loop in `find_all_occurrences`
(`pos = search_line.find(pattern, start); ...; start = pos + 1`): because
the restart position is `pos + 1`, the loop inspects every index exactly
once and records each index where the pattern matches, including the
index one past the last character (where only the empty pattern matches,
exactly as `str.find` behaves). -/
def allOccs (pat : List Char) : List Char → List Nat
  | [] => if pat.isPrefixOf ([] : List Char) then [0] else []
  | l@(_ :: t) =>
      (if pat.isPrefixOf l then [0] else []) ++ (allOccs pat t).map (· + 1)

/-- Core of Python `str.count` for a nonempty pattern `c :: p`: greedy
left-to-right count of non-overlapping occurrences (on a match the scan
skips the whole pattern). -/
def countAuxGo (c : Char) (p : List Char) : Nat → List Char → Nat
  | _, [] => 0
  | 0, _ :: _ => 0
  | fuel + 1, x :: t =>
      if (c :: p).isPrefixOf (x :: t) then 1 + countAuxGo c p fuel (t.drop p.length)
      else countAuxGo c p fuel t

def countAux (c : Char) (p : List Char) (l : List Char) : Nat :=
  countAuxGo c p l.length l

/-- Python `line.count(pat)` (an empty pattern counts `len + 1`). -/
def pyCount (pat l : List Char) : Nat :=
  match pat with
  | [] => l.length + 1
  | c :: p => countAux c p l

/-- Core of Python `str.replace` for a nonempty pattern: replace
non-overlapping occurrences greedily from the left. -/
def replaceGoF (c : Char) (p : List Char) (new : List Char) : Nat → List Char → List Char
  | _, [] => []
  | 0, l => l
  | fuel + 1, x :: t =>
      if (c :: p).isPrefixOf (x :: t) then new ++ replaceGoF c p new fuel (t.drop p.length)
      else x :: replaceGoF c p new fuel t

def replaceGo (c : Char) (p : List Char) (new : List Char) (l : List Char) : List Char :=
  replaceGoF c p new l.length l

/-- Python `line.replace(pat, new)` (an empty pattern interleaves `new`
around every character, as Python does). -/
def pyReplaceStr (pat new l : List Char) : List Char :=
  match pat with
  | [] => new ++ l.flatMap (fun ch => ch :: new)
  | c :: p => replaceGo c p new l

/-- Python `pat in line` (substring containment). -/
def containsSub (pat : List Char) : List Char → Bool
  | [] => pat.isPrefixOf ([] : List Char)
  | l@(_ :: t) => pat.isPrefixOf l || containsSub pat t

/-- Core of the case-insensitive literal replacement loop of
`replace_all` for a nonempty (already lowered) pattern `c :: p`: the
loop finds `lower_old` in `lower_line` and splices `new` between slices
of the original line, advancing by the pattern length, so it walks the
original line greedily, comparing lowered text.  Returns the rebuilt
line and the number of replacements. -/
def ciReplaceGoF (c : Char) (p : List Char) (new : List Char) :
    Nat → List Char → List Char × Nat
  | _, [] => ([], 0)
  | 0, l => (l, 0)
  | fuel + 1, x :: t =>
      if (c :: p).isPrefixOf (pyLower (x :: t)) then
        let r := ciReplaceGoF c p new fuel (t.drop p.length)
        (new ++ r.1, r.2 + 1)
      else
        let r := ciReplaceGoF c p new fuel t
        (x :: r.1, r.2)

def ciReplaceGo (c : Char) (p : List Char) (new : List Char) (l : List Char) :
    List Char × Nat :=
  ciReplaceGoF c p new l.length l

/-- The case-insensitive literal branch of `replace_all` on one line.
The source code loops forever when `old` is empty (the restart position
never advances); that unreachable case is mapped to "no change" here and
every theorem touching this branch assumes a nonempty pattern. -/
def ciReplaceLine (old new line : List Char) : List Char × Nat :=
  match pyLower old with
  | [] => (line, 0)
  | c :: p => ciReplaceGo c p new line

/-- First position `≥ 0` where `pat` occurs in `l`, as an offset. -/
def findAux (pat : List Char) : List Char → Option Nat
  | [] => if pat.isPrefixOf ([] : List Char) then some 0 else none
  | l@(_ :: t) =>
      if pat.isPrefixOf l then some 0 else (findAux pat t).map (· + 1)

/-- Python `line.find(pat, start)` returning `none` for `-1`. -/
def pyFind (pat line : List Char) (start : Nat) : Option Nat :=
  if start ≤ line.length then (findAux pat (line.drop start)).map (· + start)
  else none

/-! ### Word-boundary matching (`r'\b' + re.escape(pat) + r'\b'`)

The whole-word code paths build a regex from an escaped literal, so the
only regex feature in play is `\b`: a position is a boundary when
exactly one of the adjacent characters is a word character. -/

/-- Regex word character (`\w` for the default ASCII-ish classes used
by the word patterns in buffer.py). -/
def isWordChar (c : Char) : Bool :=
  ('a' ≤ c && c ≤ 'z') || ('A' ≤ c && c ≤ 'Z') || ('0' ≤ c && c ≤ '9') || c = '_'

/-- `\b` holds at offset `j` of `line`. -/
def boundaryAt (line : List Char) (j : Nat) : Bool :=
  let before := match line.get? (j - 1) with
    | some c => decide (0 < j) && isWordChar c
    | none => false
  let after := match line.get? j with
    | some c => isWordChar c
    | none => false
  before != after

/-- The pattern `\b pat \b` (with `pat` an escaped literal, optionally
compared case-insensitively on lowered text) matches at offset `i`. -/
def wbMatchAt (pat line : List Char) (i : Nat) (ci : Bool) : Bool :=
  (if ci then (pyLower pat).isPrefixOf (pyLower (line.drop i))
   else pat.isPrefixOf (line.drop i)) &&
  boundaryAt line i && boundaryAt line (i + pat.length)

/-- Scan of `re.finditer` for `\b pat \b`: leftmost matches, resuming
after each match (fuel counts the remaining scan positions). -/
def finditerWBAux (pat line : List Char) (ci : Bool) : Nat → Nat → List (Nat × Nat)
  | _, 0 => []
  | i, fuel + 1 =>
      if i > line.length then []
      else if wbMatchAt pat line i ci then
        (i, i + pat.length) :: finditerWBAux pat line ci (i + max 1 pat.length) fuel
      else finditerWBAux pat line ci (i + 1) fuel

/-- All `\b pat \b` matches of a line, as `(start, end)` pairs. -/
def finditerWB (pat line : List Char) (ci : Bool) : List (Nat × Nat) :=
  finditerWBAux pat line ci 0 (line.length + 1)

/-- `re.subn` for the whole-word pattern: splice `new` over each match
(`ms` are the non-overlapping matches, ascending). -/
def subnSpliceGo (new line : List Char) : Nat → List (Nat × Nat) → List Char
  | pos, [] => line.drop pos
  | pos, (s, e) :: rest => sliceL line pos s ++ new ++ subnSpliceGo new line e rest

def subnSplice (ms : List (Nat × Nat)) (new line : List Char) : List Char :=
  subnSpliceGo new line 0 ms

/-! ### Line splitting and line-ending handling (`load_file` / `save_file`) -/

/-- The characters Python `str.splitlines` treats as line breaks. -/
def lineBreakChars : List Char :=
  ['\n', '\r', '\x0b', '\x0c', '\x1c', '\x1d', '\x1e', '\x85', '\u2028', '\u2029']

/-- Split into segments at line breaks, treating `\r\n` as a single
break; the segment after the last break is kept, so a string ending in a
break produces a final empty segment. -/
def slGoF : Nat → List Char → List (List Char)
  | _, [] => [[]]
  | 0, _ :: _ => [[]]
  | fuel + 1, c :: rest =>
      if c = '\r' ∧ rest.head? = some '\n' then [] :: slGoF fuel rest.tail
      else if c ∈ lineBreakChars then [] :: slGoF fuel rest
      else
        match slGoF fuel rest with
        | [] => [[c]]
        | r :: rs => (c :: r) :: rs

def slGo (s : List Char) : List (List Char) := slGoF s.length s

/-- Python `str.splitlines`: segments at line breaks, except that a
trailing empty segment (string empty or ending in a break) is dropped. -/
def pySplitlines (s : List Char) : List (List Char) :=
  let g := slGo s
  if g.getLast? = some [] then g.dropLast else g

/-- Python `'\r\n' in content`. -/
def containsCRLF : List Char → Bool
  | [] => false
  | c :: t => (c = '\r' && t.head? = some '\n') || containsCRLF t

/-- `_detect_line_endings`: CRLF wins over lone CR, which wins over LF. -/
def detect_line_endings (content : List Char) : List Char :=
  if containsCRLF content then ['\r', '\n']
  else if content.contains '\r' then ['\r']
  else ['\n']

/-! ### The Document Store (`TextBuffer`) -/

/-- The in-memory state of `TextBuffer` (buffer.py).  File-system
concerns (paths, encodings detection from bytes, temporary files) stay
outside the embedding; `load`/`save` are modelled at the level of the
decoded content string they read/write. -/
structure TextBuffer where
  lines : List (List Char)
  filename : Option (List Char)
  encoding : List Char
  line_ending : List Char
  modified : Bool
  total_chars : Nat
  total_lines : Nat
deriving DecidableEq, Repr

/-- Errors raised by the buffer operations under scrutiny (`AxiomError`
carrying an "Invalid line number" / "Invalid regex pattern" message). -/
inductive AxiomErr where
  | invalidLine : Int → AxiomErr
  | invalidPattern : AxiomErr
deriving DecidableEq, Repr

/-- `_update_stats`. -/
def update_stats (b : TextBuffer) : TextBuffer :=
  { b with
    total_lines := b.lines.length
    total_chars := (b.lines.map List.length).sum + (b.lines.length - 1) }

/-- The content-processing part of `load_file` (after the file has been
read and decoded): detect line endings, split into lines guaranteeing at
least one line, clear `modified`, refresh stats. -/
def load_from_content (b : TextBuffer) (content : List Char) : TextBuffer :=
  let le := detect_line_endings content
  let ls :=
    if content = [] then [[]]
    else
      let sl := pySplitlines content
      if sl = [] then [[]] else sl
  update_stats { b with lines := ls, line_ending := le, modified := false }

/-- The content written by `save_file`: lines joined with the current
line ending (Python `str.join`). -/
def pyJoin (sep : List Char) : List (List Char) → List Char
  | [] => []
  | [l] => l
  | l :: ls => l ++ sep ++ pyJoin sep ls

def save_content (b : TextBuffer) : List Char := pyJoin b.line_ending b.lines

/-- `save` then `load` on the written content. -/
def save_load (b : TextBuffer) : TextBuffer := load_from_content b (save_content b)

/-- `insert_char`: invalid line fails loudly, column clamps. -/
def insert_char (b : TextBuffer) (line_num col : Int) (ch : Char) :
    Except AxiomErr TextBuffer :=
  if 0 ≤ line_num ∧ line_num < (b.lines.length : Int) then
    let n := line_num.toNat
    let line := b.lines.getD n []
    let c := if 0 ≤ col ∧ col ≤ (line.length : Int) then col.toNat else line.length
    Except.ok (update_stats
      { b with lines := b.lines.set n (line.take c ++ [ch] ++ line.drop c),
               modified := true })
  else Except.error (AxiomErr.invalidLine line_num)

/-- `delete_char`: out-of-range line or column is a silent no-op. -/
def delete_char (b : TextBuffer) (line_num col : Int) : TextBuffer :=
  if 0 ≤ line_num ∧ line_num < (b.lines.length : Int) then
    let n := line_num.toNat
    let line := b.lines.getD n []
    if 0 ≤ col ∧ col < (line.length : Int) then
      let c := col.toNat
      update_stats
        { b with lines := b.lines.set n (line.take c ++ line.drop (c + 1)),
                 modified := true }
    else b
  else b

/-- `insert_newline`: split the line at `col` (clamped), the right part
becoming a new following line; invalid line fails loudly. -/
def insert_newline (b : TextBuffer) (line_num col : Int) :
    Except AxiomErr TextBuffer :=
  if 0 ≤ line_num ∧ line_num < (b.lines.length : Int) then
    let n := line_num.toNat
    let line := b.lines.getD n []
    let c := if 0 ≤ col ∧ col ≤ (line.length : Int) then col.toNat else line.length
    Except.ok (update_stats
      { b with lines := (b.lines.set n (line.take c)).insertIdx (n + 1) (line.drop c),
               modified := true })
  else Except.error (AxiomErr.invalidLine line_num)

/-- `join_lines`: no-op unless `0 ≤ line < len(lines) - 1`. -/
def join_lines (b : TextBuffer) (line_num : Int) : TextBuffer :=
  if 0 ≤ line_num ∧ line_num < (b.lines.length : Int) - 1 then
    let n := line_num.toNat
    let cur := b.lines.getD n []
    let nxt := b.lines.getD (n + 1) []
    update_stats
      { b with lines := (b.lines.set n (cur ++ nxt)).eraseIdx (n + 1),
               modified := true }
  else b

/-- `replace_text`: single-span replacement at clamped column bounds
(the `old_text` argument is unused in the source as well). -/
def replace_text (b : TextBuffer) (_old_text new_text : List Char) (line_num : Int)
    (start_col end_col : Int) : TextBuffer :=
  if 0 ≤ line_num ∧ line_num < (b.lines.length : Int) then
    let n := line_num.toNat
    let line := b.lines.getD n []
    let sc := (max 0 (min start_col (line.length : Int))).toNat
    let ec := (max (sc : Int) (min end_col (line.length : Int))).toNat
    update_stats
      { b with lines := b.lines.set n (line.take sc ++ new_text ++ line.drop ec),
               modified := true }
  else b

/-! ### Search/Replace Engine (literal branches of buffer.py)

`find_text`, `_search_range`, `find_all_occurrences` and `replace_all`
are embedded for `regex=False`.  Their `regex=True` branches delegate
wholesale to Python's `re` engine and stay outside the embedding; the
whole-word literal branches, which compile `\b re.escape(pat) \b`, are
embedded through `finditerWB` above.  Note the source slip kept here on
purpose: `_search_range` and `find_all_occurrences` compute `flags`
(`re.IGNORECASE`) for the whole-word search but never pass them to
`re.finditer`, so those searches compare the (possibly lowered) pattern
case-sensitively against the original line. -/

/-- One line of `_search_range`: first match at column `≥ start_pos`. -/
def search_line_lit (pat line : List Char) (start_pos : Nat) (cs ww : Bool) :
    Option (Nat × Nat) :=
  if ww then
    (finditerWB pat line false).find? (fun m => start_pos ≤ m.1)
  else
    let search_line := if cs then line else pyLower line
    match pyFind pat search_line start_pos with
    | some pos => some (pos, pos + pat.length)
    | none => none

/-- The line loop of `_search_range` over a list of line indices. -/
def search_lines (lines : List (List Char)) (pat : List Char)
    (start_line start_col : Nat) (cs ww : Bool) : List Nat → Option (Nat × Nat × Nat)
  | [] => none
  | n :: rest =>
      let line := lines.getD n []
      let sp := if n = start_line then start_col else 0
      match search_line_lit pat line sp cs ww with
      | some (s, e) => some (n, s, e)
      | none => search_lines lines pat start_line start_col cs ww rest

/-- `_search_range(pat, start_line, start_col, end_line, ...)` for the
literal branches (`range(start_line, min(end_line, len(lines)))`). -/
def search_range (lines : List (List Char)) (pat : List Char)
    (start_line start_col end_line : Nat) (cs ww : Bool) : Option (Nat × Nat × Nat) :=
  search_lines lines pat start_line start_col cs ww
    (List.range' start_line (min end_line lines.length - start_line))

/-- `find_text` (literal branches): lower the pattern when
case-insensitive, search forward, then optionally wrap around and accept
only a match strictly before the start position. -/
def find_text (b : TextBuffer) (pat : List Char) (start_line start_col : Nat)
    (cs ww wrap : Bool) : Option (Nat × Nat × Nat) :=
  let pat' := if cs then pat else pyLower pat
  match search_range b.lines pat' start_line start_col b.lines.length cs ww with
  | some r => some r
  | none =>
      if wrap ∧ (0 < start_line ∨ 0 < start_col) then
        match search_range b.lines pat' 0 0 (start_line + 1) cs ww with
        | some r =>
            if r.1 < start_line ∨ (r.1 = start_line ∧ r.2.1 < start_col) then some r
            else none
        | none => none
      else none

/-- One line of `find_all_occurrences` (literal branches).  The
whole-word branch uses the original pattern and the original line
(case sensitivity is dropped there, as in the source); otherwise both
pattern and line are lowered when case-insensitive and every match
position is recorded (the loop restarts at `pos + 1`). -/
def find_all_line (pat line : List Char) (cs ww : Bool) : List (Nat × Nat) :=
  if ww then finditerWB pat line false
  else
    let sp := if cs then pat else pyLower pat
    let sl := if cs then line else pyLower line
    (allOccs sp sl).map (fun pos => (pos, pos + pat.length))

/-- The `enumerate(self.lines)` loop of `find_all_occurrences`. -/
def find_all_go (pat : List Char) (cs ww : Bool) :
    List (List Char) → Nat → List (Nat × Nat × Nat)
  | [], _ => []
  | line :: rest, n =>
      ((find_all_line pat line cs ww).map (fun m => (n, m.1, m.2))) ++
      find_all_go pat cs ww rest (n + 1)

/-- `find_all_occurrences` (literal branches): all matches as
`(line, startCol, endCol)` triples, lines scanned top to bottom. -/
def find_all_occurrences (b : TextBuffer) (pat : List Char) (cs ww : Bool) :
    List (Nat × Nat × Nat) :=
  find_all_go pat cs ww b.lines 0

/-- One line of `replace_all` (literal branches): the replaced line and
the number of replacements on it. -/
def replace_all_line (old new line : List Char) (cs ww : Bool) : List Char × Nat :=
  if ww then
    let ms := finditerWB old line (!cs)
    (subnSplice ms new line, ms.length)
  else if cs then
    if containsSub old line then (pyReplaceStr old new line, pyCount old line)
    else (line, 0)
  else ciReplaceLine old new line

/-- `replace_all` (literal branches): every line is rewritten; the
buffer is marked modified and its stats refreshed only when the total
replacement count is positive. -/
def replace_all (b : TextBuffer) (old new : List Char) (cs ww : Bool) :
    Nat × TextBuffer :=
  let results := b.lines.map (fun line => replace_all_line old new line cs ww)
  let count := (results.map Prod.snd).sum
  let b' := { b with lines := results.map Prod.fst }
  (count, if 0 < count then update_stats { b' with modified := true } else b')

/-- `find_text` as a state-passing operation: the method reads
`self.lines` and assigns no field, so the buffer it leaves behind is its
receiver. -/
def find_text_op (b : TextBuffer) (pat : List Char) (start_line start_col : Nat)
    (cs ww wrap : Bool) : Option (Nat × Nat × Nat) × TextBuffer :=
  (find_text b pat start_line start_col cs ww wrap, b)

/-- `find_all_occurrences` as a state-passing operation. -/
def find_all_occurrences_op (b : TextBuffer) (pat : List Char) (cs ww : Bool) :
    List (Nat × Nat × Nat) × TextBuffer :=
  (find_all_occurrences b pat cs ww, b)

/-! ### The Syntax Highlighter (syntax.py)

`highlight_line` resolves a language from the explicit override or the
filename-extension table; that resolution and the per-language pattern
tables are abstracted: a resolved language is represented by the list of
matches its rules produce on the line (what `re.finditer` feeds into
`_apply_patterns`), and an unresolved language by `none`. -/

/-- Color pair constants of `SyntaxHighlighter`. -/
def COLOR_NORMAL : Nat := 1
def COLOR_ERROR : Nat := 5
def COLOR_BRACKET : Nat := 7

/-- One regex match as tagged by `_apply_patterns`:
`{'start': …, 'end': …, 'color': …, 'priority': …}` (`stop` stands for
Python's `end`). -/
structure PMatch where
  start : Nat
  stop : Nat
  color : Nat
  priority : Nat
deriving DecidableEq, Repr

/-- Highlighter feature switches (all on by default, threshold 120). -/
structure HLState where
  hl_brackets : Bool := true
  hl_trailing : Bool := true
  hl_long : Bool := true
  max_line_length : Nat := 120
deriving DecidableEq, Repr

def hlDefault : HLState := {}

/-- Sort key of `matches.sort(key=lambda x: (x['start'], -x['priority']))`:
ascending start, then descending priority. -/
def matchLE (a b : PMatch) : Bool :=
  decide (a.start < b.start ∨ (a.start = b.start ∧ b.priority ≤ a.priority))

/-- Stable insertion (a new element goes after existing elements whose
key is less than or equal). -/
def insertMatch (m : PMatch) : List PMatch → List PMatch
  | [] => [m]
  | x :: xs => if matchLE x m then x :: insertMatch m xs else m :: x :: xs

/-- Stable sort by `(start, -priority)`. -/
def sortMatches : List PMatch → List PMatch
  | [] => []
  | m :: ms => insertMatch m (sortMatches ms)

/-- The left-to-right sweep of `_apply_patterns`: a match starting
before the write position is dropped, otherwise the gap before it is
emitted as a default span and the match as a colored span; the text
after the last accepted match is emitted as a default span. -/
def sweepMatches (line : List Char) : List PMatch → Nat → List (List Char × Nat)
  | [], pos => if pos < line.length then [(line.drop pos, COLOR_NORMAL)] else []
  | m :: rest, pos =>
      if m.start < pos then sweepMatches line rest pos
      else
        (if pos < m.start then [(sliceL line pos m.start, COLOR_NORMAL)] else []) ++
        [(sliceL line m.start m.stop, m.color)] ++ sweepMatches line rest m.stop

/-- `_apply_patterns` on a line, given the matches its pattern table
produced. -/
def apply_patterns (line : List Char) (ms : List PMatch) : List (List Char × Nat) :=
  if line = [] then [(line, COLOR_NORMAL)]
  else
    let segs := sweepMatches line (sortMatches ms) 0
    if segs = [] then [(line, COLOR_NORMAL)] else segs

/-- Python whitespace as stripped by `str.rstrip()` (ASCII part). -/
def isPySpace (c : Char) : Bool :=
  c = ' ' ∨ c = '\t' ∨ c = '\n' ∨ c = '\r' ∨ c = '\x0b' ∨ c = '\x0c'

/-- Python `line.rstrip()`. -/
def pyRstrip (line : List Char) : List Char := line.rdropWhile isPySpace

/-- `_apply_basic_highlighting`: the whole line as one default span,
split into stripped text plus an error-colored tail when the line has
trailing whitespace. -/
def apply_basic_highlighting (st : HLState) (line : List Char) : List (List Char × Nat) :=
  if st.hl_trailing then
    let stripped := pyRstrip line
    if stripped.length < line.length then
      [(stripped, COLOR_NORMAL), (line.drop stripped.length, COLOR_ERROR)]
    else [(line, COLOR_NORMAL)]
  else [(line, COLOR_NORMAL)]

/-- The overlong-line pass of `_apply_advanced_features`: every span
crossing the threshold is split so the excess is error-colored. -/
def longLineSplit (maxLen : Nat) : List (List Char × Nat) → Nat → List (List Char × Nat)
  | [], _ => []
  | (text, color) :: rest, current_pos =>
      if current_pos + text.length ≤ maxLen then
        (text, color) :: longLineSplit maxLen rest (current_pos + text.length)
      else
        let split_point := maxLen - current_pos
        (if 0 < split_point then
          [(text.take split_point, color), (text.drop split_point, COLOR_ERROR)]
        else [(text, COLOR_ERROR)]) ++ longLineSplit maxLen rest (current_pos + text.length)

/-- `_highlight_character_at_position`: recolor the single character at
`pos`, splitting the span containing it. -/
def highlight_char_at (pos color : Nat) : List (List Char × Nat) → Nat → List (List Char × Nat)
  | [], _ => []
  | (text, scolor) :: rest, current_pos =>
      if current_pos + text.length ≤ pos then
        (text, scolor) :: highlight_char_at pos color rest (current_pos + text.length)
      else if pos < current_pos then
        (text, scolor) :: highlight_char_at pos color rest current_pos
      else
        let local_pos := pos - current_pos
        (if local_pos = 0 then
          [(text.take 1, color)] ++
          (if 1 < text.length then [(text.drop 1, scolor)] else [])
        else if local_pos = text.length - 1 then
          (if 1 < text.length then [(text.take (text.length - 1), scolor)] else []) ++
          [(text.drop local_pos, color)]
        else
          [(text.take local_pos, scolor), (sliceL text local_pos (local_pos + 1), color),
           (text.drop (local_pos + 1), scolor)]) ++
        highlight_char_at pos color rest (current_pos + text.length)

/-- `_find_matching_bracket_forward` over the suffix after `start`
(`i` tracks the absolute index, `count` the nesting depth). -/
def fmbGo (openc closec : Char) : List Char → Nat → Nat → Option Nat
  | [], _, _ => none
  | c :: rest, i, count =>
      if c = openc then fmbGo openc closec rest (i + 1) (count + 1)
      else if c = closec then
        if count = 1 then some i else fmbGo openc closec rest (i + 1) (count - 1)
      else fmbGo openc closec rest (i + 1) count

def find_matching_bracket_forward (line : List Char) (start : Nat)
    (openc closec : Char) : Option Nat :=
  fmbGo openc closec (line.drop (start + 1)) (start + 1) 1

/-- `_find_matching_bracket_backward`: scan `line[start-1], …, line[0]`
(`i` is one past the index under inspection). -/
def bmbGo (openc closec : Char) : List Char → Nat → Nat → Option Nat
  | [], _, _ => none
  | c :: rest, i, count =>
      if c = closec then bmbGo openc closec rest (i - 1) (count + 1)
      else if c = openc then
        if count = 1 then some (i - 1) else bmbGo openc closec rest (i - 1) (count - 1)
      else bmbGo openc closec rest (i - 1) count

def find_matching_bracket_backward (line : List Char) (start : Nat)
    (openc closec : Char) : Option Nat :=
  bmbGo openc closec (line.take start).reverse start 1

/-- The fixed pair set of `_highlight_matching_brackets`. -/
def bracket_pairs : List (Char × Char) :=
  [('(', ')'), ('[', ']'), ('\x7b', '\x7d'), ('<', '>')]

/-- `_highlight_matching_brackets`: if the character under the cursor is
a bracket and its partner is found on the same line, recolor exactly
those two characters. -/
def highlight_matching_brackets (segs : List (List Char × Nat)) (line : List Char)
    (cursor_col : Nat) : List (List Char × Nat) :=
  if line.length ≤ cursor_col then segs
  else
    let ch := line.getD cursor_col ' '
    if bracket_pairs.any (fun p => p.1 = ch) then
      let target := ((bracket_pairs.find? (fun p => p.1 = ch)).map Prod.snd).getD ' '
      match find_matching_bracket_forward line cursor_col ch target with
      | some mp =>
          highlight_char_at mp COLOR_BRACKET
            (highlight_char_at cursor_col COLOR_BRACKET segs 0) 0
      | none => segs
    else if bracket_pairs.any (fun p => p.2 = ch) then
      let target := ((bracket_pairs.find? (fun p => p.2 = ch)).map Prod.fst).getD ' '
      match find_matching_bracket_backward line cursor_col target ch with
      | some mp =>
          highlight_char_at mp COLOR_BRACKET
            (highlight_char_at cursor_col COLOR_BRACKET segs 0) 0
      | none => segs
    else segs

/-- `_apply_advanced_features`: overlong-line pass, then the
matching-bracket pass when a cursor column is supplied. -/
def apply_advanced_features (st : HLState) (segs : List (List Char × Nat))
    (original_line : List Char) (cursor_col : Int) : List (List Char × Nat) :=
  let segs :=
    if st.hl_long ∧ st.max_line_length < original_line.length then
      longLineSplit st.max_line_length segs 0
    else segs
  if st.hl_brackets ∧ 0 ≤ cursor_col then
    highlight_matching_brackets segs original_line cursor_col.toNat
  else segs

/-- `highlight_line`: an unresolved language (`none`) gets only the
basic highlighting; a resolved one gets its pattern matches swept into
spans and then the advanced features. -/
def highlight_line (st : HLState) (resolved : Option (List PMatch))
    (line : List Char) (cursor_col : Int) : List (List Char × Nat) :=
  match resolved with
  | none => apply_basic_highlighting st line
  | some ms => apply_advanced_features st (apply_patterns line ms) line cursor_col

/-- Concatenation of the text spans of a highlighting result. -/
def concatSegs (segs : List (List Char × Nat)) : List Char :=
  (segs.map Prod.fst).flatten

/-- Well-formedness of abstract matches: `re` only produces spans with
`start ≤ end` (within the line). -/
def wfMatches : Option (List PMatch) → Bool
  | none => true
  | some ms => ms.all (fun m => decide (m.start ≤ m.stop))

/-! ### Cursor/Viewport Controller (core.py) -/

/-- The slice of `AxiomEditor` state read and written by
`_ensure_cursor_visible` (`status_line` is the visible row count,
`width` the terminal width; 5 columns of gutter are reserved when line
numbers are shown). -/
structure EditorView where
  cursor_x : Int
  cursor_y : Int
  scroll_x : Int
  scroll_y : Int
  width : Int
  status_line : Int
  show_line_numbers : Bool
deriving DecidableEq, Repr

/-- The visible width used for horizontal scrolling. -/
def visibleWidth (s : EditorView) : Int :=
  if s.show_line_numbers then s.width - 5 else s.width

/-- `_ensure_cursor_visible`: minimal vertical/horizontal scroll
adjustment, then clamping both offsets to `≥ 0`. -/
def ensure_cursor_visible (s : EditorView) : EditorView :=
  let sy :=
    if s.cursor_y < s.scroll_y then s.cursor_y
    else if s.scroll_y + s.status_line ≤ s.cursor_y then s.cursor_y - s.status_line + 1
    else s.scroll_y
  let sx :=
    if s.cursor_x < s.scroll_x then s.cursor_x
    else if s.scroll_x + visibleWidth s ≤ s.cursor_x then s.cursor_x - visibleWidth s + 1
    else s.scroll_x
  { s with scroll_x := max 0 sx, scroll_y := max 0 sy }

/-! ### Derived notions used by the search/replace theorems -/

/-- The per-line occurrence positions that the non-whole-word literal
branch of `find_all_occurrences` enumerates (pattern and line both
lowered when case-insensitive). -/
def lineOccs (cs : Bool) (pat line : List Char) : List Nat :=
  allOccs (if cs then pat else pyLower pat) (if cs then line else pyLower line)

/-- Strict line-then-column order on `(line, startCol, endCol)` match
triples. -/
def posLt (a b : Nat × Nat × Nat) : Prop :=
  a.1 < b.1 ∨ (a.1 = b.1 ∧ a.2.1 < b.2.1)

instance (a b : Nat × Nat × Nat) : Decidable (posLt a b) :=
  inferInstanceAs (Decidable (a.1 < b.1 ∨ (a.1 = b.1 ∧ a.2.1 < b.2.1)))

/-- Adjacent occurrence positions are at least `d` apart (the Boolean
form of "no two occurrences overlap", since the positions are listed in
increasing order). -/
def chainGap (d : Nat) : List Nat → Bool
  | [] => true
  | [_] => true
  | a :: b :: rest => (decide (a + d ≤ b)) && chainGap d (b :: rest)

/-! ### Spec-side pipeline for the unresolved-language case

The spec describes the unresolved-language path of `highlight_line` as
running all three cross-cutting passes over the whole line as one
default span; this definition follows those words, for comparison with
the code's actual behaviour. -/

/-- Modelled from the spec: "if none resolves, apply only the
cross-cutting passes below against the whole line as one default-colored
span" — i.e. the trailing-whitespace pass, the overlong-line pass and
the matching-bracket pass, in that order. -/
def spec_no_lang_passes (st : HLState) (line : List Char) (cursor_col : Int) :
    List (List Char × Nat) :=
  apply_advanced_features st (apply_basic_highlighting st line) line cursor_col

/-! ### Span-concatenation lemmas for the highlighter -/

theorem concatSegs_append (a b : List (List Char × Nat)) :
    concatSegs (a ++ b) = concatSegs a ++ concatSegs b := by
  simp [concatSegs]

theorem concatSegs_cons (x : List Char × Nat) (l : List (List Char × Nat)) :
    concatSegs (x :: l) = x.1 ++ concatSegs l := by
  simp [concatSegs]

theorem sliceL_append_drop {a b : Nat} (l : List Char) (h : a ≤ b) :
    sliceL l a b ++ l.drop b = l.drop a := by
  have h2 : l.drop b = (l.drop a).drop (b - a) := by
    rw [List.drop_drop]; congr 1; omega
  rw [sliceL, h2, List.take_append_drop]

theorem concat_sweepMatches (line : List Char) :
    ∀ (ms : List PMatch) (pos : Nat), (∀ m ∈ ms, m.start ≤ m.stop) →
      concatSegs (sweepMatches line ms pos) = line.drop pos := by
  intro ms
  induction ms with
  | nil =>
      intro pos _
      by_cases h : pos < line.length
      · simp [sweepMatches, concatSegs, h]
      · simp only [sweepMatches, if_neg h]
        rw [List.drop_eq_nil_of_le (by omega)]
        simp [concatSegs]
  | cons m rest ih =>
      intro pos hwf
      have hm : m.start ≤ m.stop := hwf m (by simp)
      have hrest : ∀ x ∈ rest, x.start ≤ x.stop := fun x hx => hwf x (by simp [hx])
      simp only [sweepMatches]
      by_cases hlt : m.start < pos
      · simpa [hlt] using ih pos hrest
      · rw [if_neg hlt]
        rw [concatSegs_append, concatSegs_append]
        rw [concatSegs_cons, ih m.stop hrest]
        simp only [concatSegs]
        by_cases hgap : pos < m.start
        · rw [if_pos hgap]
          simp only [List.map_cons, List.map_nil, List.flatten_cons, List.flatten_nil,
            List.append_nil]
          rw [List.append_assoc, sliceL_append_drop line hm, sliceL_append_drop line (by omega)]
        · rw [if_neg hgap]
          have hpos : pos = m.start := by omega
          subst hpos
          simp only [List.map_nil, List.flatten_nil, List.nil_append, List.append_nil]
          rw [sliceL_append_drop line hm]

theorem mem_insertMatch {a m : PMatch} : ∀ {xs : List PMatch},
    a ∈ insertMatch m xs ↔ a = m ∨ a ∈ xs := by
  intro xs
  induction xs with
  | nil => simp [insertMatch]
  | cons x xs ih =>
      by_cases h : matchLE x m = true
      · simp only [insertMatch, if_pos h, List.mem_cons, ih]
        tauto
      · simp only [insertMatch, if_neg h, List.mem_cons]

theorem mem_sortMatches {a : PMatch} : ∀ {ms : List PMatch},
    a ∈ sortMatches ms ↔ a ∈ ms := by
  intro ms
  induction ms with
  | nil => simp [sortMatches]
  | cons m ms ih => simp [sortMatches, mem_insertMatch, ih]

theorem concat_apply_patterns (line : List Char) (ms : List PMatch)
    (h : ∀ m ∈ ms, m.start ≤ m.stop) : concatSegs (apply_patterns line ms) = line := by
  unfold apply_patterns
  by_cases hl : line = []
  · simp [hl, concatSegs]
  · rw [if_neg hl]
    have hs : ∀ m ∈ sortMatches ms, m.start ≤ m.stop := by
      intro m hm; exact h m (mem_sortMatches.mp hm)
    have hc := concat_sweepMatches line (sortMatches ms) 0 hs
    by_cases hseg : sweepMatches line (sortMatches ms) 0 = []
    · simp only [hseg, if_pos rfl]
      rw [hseg] at hc
      simp only [concatSegs, List.map_nil, List.flatten_nil] at hc
      simp [concatSegs, hc]
    · simp only [if_neg hseg]
      simpa using hc

theorem concat_longLineSplit (maxLen : Nat) :
    ∀ (segs : List (List Char × Nat)) (pos : Nat),
      concatSegs (longLineSplit maxLen segs pos) = concatSegs segs := by
  intro segs
  induction segs with
  | nil => intro pos; simp [longLineSplit]
  | cons seg rest ih =>
      intro pos
      obtain ⟨text, color⟩ := seg
      simp only [longLineSplit]
      by_cases h : pos + text.length ≤ maxLen
      · simp only [if_pos h, concatSegs_cons, ih]
      · rw [if_neg h, concatSegs_append, ih]
        by_cases hsp : 0 < maxLen - pos
        · simp only [if_pos hsp, concatSegs_cons, concatSegs]
          simp [← List.append_assoc, List.take_append_drop]
        · have hnp : ¬ pos < maxLen := by omega
          simp [hnp, concatSegs_cons, concatSegs]

theorem concat_highlight_char_at (pos color : Nat) :
    ∀ (segs : List (List Char × Nat)) (cp : Nat),
      concatSegs (highlight_char_at pos color segs cp) = concatSegs segs := by
  intro segs
  induction segs with
  | nil => intro cp; simp [highlight_char_at]
  | cons seg rest ih =>
      intro cp
      obtain ⟨text, scolor⟩ := seg
      simp only [highlight_char_at]
      by_cases h1 : cp + text.length ≤ pos
      · simp only [if_pos h1, concatSegs_cons, ih]
      · rw [if_neg h1]
        by_cases h2 : pos < cp
        · simp only [if_pos h2, concatSegs_cons, ih]
        · rw [if_neg h2]
          rw [concatSegs_append, ih, concatSegs_cons]
          congr 1
          have hlen : 0 < text.length := by omega
          by_cases hl0 : pos - cp = 0
          · rw [if_pos hl0]
            by_cases hl1 : 1 < text.length
            · simp only [if_pos hl1, concatSegs, List.map_cons, List.map_nil,
                List.flatten_cons, List.flatten_nil, List.append_nil, List.map_append,
                List.flatten_append]
              rw [List.take_append_drop]
            · have h1t : text.take 1 = text := List.take_of_length_le (by omega)
              simp [if_neg hl1, concatSegs, h1t]
          · rw [if_neg hl0]
            by_cases hl2 : pos - cp = text.length - 1
            · have h2len : 1 < text.length := by omega
              simp only [if_pos hl2, if_pos h2len, concatSegs, List.map_cons,
                List.map_nil, List.flatten_cons, List.flatten_nil, List.append_nil,
                List.map_append, List.flatten_append]
              rw [hl2, List.take_append_drop]
            · simp only [if_neg hl2, concatSegs, List.map_cons, List.map_nil,
                List.flatten_cons, List.flatten_nil, List.append_nil]
              rw [sliceL_append_drop text (Nat.le_succ _), List.take_append_drop]

theorem concat_highlight_matching_brackets (segs : List (List Char × Nat))
    (line : List Char) (cc : Nat) :
    concatSegs (highlight_matching_brackets segs line cc) = concatSegs segs := by
  unfold highlight_matching_brackets
  by_cases h : line.length ≤ cc
  · rw [if_pos h]
  · rw [if_neg h]
    dsimp only
    split
    · split <;> simp [concat_highlight_char_at]
    · split
      · split <;> simp [concat_highlight_char_at]
      · rfl

theorem concat_apply_advanced_features (st : HLState) (segs : List (List Char × Nat))
    (line : List Char) (cc : Int) :
    concatSegs (apply_advanced_features st segs line cc) = concatSegs segs := by
  unfold apply_advanced_features
  by_cases hb : st.hl_brackets = true ∧ 0 ≤ cc
  · rw [if_pos hb, concat_highlight_matching_brackets]
    by_cases hl : st.hl_long = true ∧ st.max_line_length < line.length
    · rw [if_pos hl, concat_longLineSplit]
    · rw [if_neg hl]
  · rw [if_neg hb]
    by_cases hl : st.hl_long = true ∧ st.max_line_length < line.length
    · rw [if_pos hl, concat_longLineSplit]
    · rw [if_neg hl]

theorem concat_apply_basic_highlighting (st : HLState) (line : List Char) :
    concatSegs (apply_basic_highlighting st line) = line := by
  unfold apply_basic_highlighting
  by_cases ht : st.hl_trailing = true
  · rw [if_pos ht]
    by_cases hlt : (pyRstrip line).length < line.length
    · rw [if_pos hlt]
      have hpre : pyRstrip line <+: line := List.rdropWhile_prefix isPySpace line
      obtain ⟨t, hts⟩ := hpre
      have hdrop : line.drop (pyRstrip line).length = t := by
        calc line.drop (pyRstrip line).length
            = (pyRstrip line ++ t).drop (pyRstrip line).length := by rw [hts]
          _ = t := List.drop_left _ _
      simp only [concatSegs, List.map_cons, List.map_nil, List.flatten_cons,
        List.flatten_nil, List.append_nil, hdrop]
      exact hts
    · rw [if_neg hlt]; simp [concatSegs]
  · rw [if_neg ht]; simp [concatSegs]

/-- C3: for every input line, every resolved-or-unresolved language
(abstracted by the matches its rule table produces, which `re` always
reports with `start ≤ end`), and every cursor column (including `-1`,
empty lines and lines with no matches), the text spans returned by
`highlight_line`, concatenated in order, reproduce the input line
exactly. -/
theorem c3_highlight_spans_concat (st : HLState) (resolved : Option (List PMatch))
    (line : List Char) (cursor_col : Int) (hwf : wfMatches resolved = true) :
    concatSegs (highlight_line st resolved line cursor_col) = line := by
  cases resolved with
  | none => exact concat_apply_basic_highlighting st line
  | some ms =>
      have h : ∀ m ∈ ms, m.start ≤ m.stop := by
        intro m hm
        have := (List.all_eq_true.mp hwf) m hm
        exact of_decide_eq_true this
      unfold highlight_line
      rw [concat_apply_advanced_features, concat_apply_patterns line ms h]

/-- Witness for C3 at a concrete input: a resolved language producing
one overlapping-capable match list on the line `abcd` with the cursor on
a bracketless column. -/
theorem c3_highlight_spans_concat_witness :
    wfMatches (some [⟨1, 3, 4, 9⟩, ⟨0, 2, 3, 5⟩]) = true ∧
    concatSegs (highlight_line hlDefault (some [⟨1, 3, 4, 9⟩, ⟨0, 2, 3, 5⟩])
      ['a', 'b', 'c', 'd'] 2) = ['a', 'b', 'c', 'd'] :=
  ⟨by decide,
   c3_highlight_spans_concat hlDefault (some [⟨1, 3, 4, 9⟩, ⟨0, 2, 3, 5⟩])
     ['a', 'b', 'c', 'd'] 2 (by decide)⟩

/-- C5 counterexample: with no resolved language, `highlight_line` on
the line `f(x)` with the cursor at column 3 (on the closing bracket)
does not equal the spec's pipeline of all three cross-cutting passes:
the code skips the overlong-line and matching-bracket passes in this
case. -/
theorem c5_no_lang_counterexample :
    highlight_line hlDefault none ['f', '(', 'x', ')'] 3 ≠
      spec_no_lang_passes hlDefault ['f', '(', 'x', ')'] 3 := by decide

/-- C5 (amended): when no language resolves, `highlight_line` applies
only the trailing-whitespace pass, returning the whole line as one
default-colored span when it has no trailing whitespace, and a
stripped-plus-error split otherwise; the overlong-line and
matching-bracket passes are not applied. -/
theorem c5_no_lang_only_trailing (st : HLState) (line : List Char) (cc : Int) :
    highlight_line st none line cc = apply_basic_highlighting st line ∧
    (st.hl_trailing = true → pyRstrip line = line →
      highlight_line st none line cc = [(line, COLOR_NORMAL)]) ∧
    (st.hl_trailing = true → pyRstrip line ≠ line →
      highlight_line st none line cc =
        [(pyRstrip line, COLOR_NORMAL),
         (line.drop (pyRstrip line).length, COLOR_ERROR)]) := by
  refine ⟨rfl, ?_, ?_⟩
  · intro ht hstrip
    show apply_basic_highlighting st line = _
    unfold apply_basic_highlighting
    rw [if_pos ht, hstrip, if_neg (lt_irrefl line.length)]
  · intro ht hstrip
    show apply_basic_highlighting st line = _
    unfold apply_basic_highlighting
    have hpre : pyRstrip line <+: line := List.rdropWhile_prefix isPySpace line
    have hlt : (pyRstrip line).length < line.length := by
      rcases Nat.lt_or_ge (pyRstrip line).length line.length with h | h
      · exact h
      · exact absurd (List.IsPrefix.eq_of_length_le hpre h) hstrip
    rw [if_pos ht, if_pos hlt]

/-- Witness for C5 (amended) at a concrete input with trailing
whitespace. -/
theorem c5_no_lang_only_trailing_witness :
    hlDefault.hl_trailing = true ∧ pyRstrip ['a', ' '] ≠ ['a', ' '] ∧
    highlight_line hlDefault none ['a', ' '] 0 =
      [(pyRstrip ['a', ' '], COLOR_NORMAL),
       (['a', ' '].drop (pyRstrip ['a', ' ']).length, COLOR_ERROR)] :=
  ⟨rfl, by decide,
   (c5_no_lang_only_trailing hlDefault ['a', ' '] 0).2.2 rfl (by decide)⟩

/-- C6 counterexample: the claim's scenario read either way fails on the
code.  On the six-character line `"f(x)"` (quotes included, the only
reading where column 4 holds `)`), the backward bracket search returns
position 2, not 1; and on the four-character line `f(x)`, column 4 is
out of range, so the matching-bracket pass leaves the spans untouched
and recolors nothing. -/
theorem c6_bracket_counterexample :
    find_matching_bracket_backward ['"', 'f', '(', 'x', ')', '"'] 4 '(' ')' ≠ some 1 ∧
    highlight_matching_brackets [(['f', '(', 'x', ')'], COLOR_NORMAL)]
      ['f', '(', 'x', ')'] 4 = [(['f', '(', 'x', ')'], COLOR_NORMAL)] := by decide

/-- C6 (amended): on the six-character line `"f(x)"` with the cursor at
column 4 pointing at `)`, the matching-bracket pass finds the match at
position 2 (the `(`) and recolors exactly the one character at each of
the two bracket positions. -/
theorem c6_bracket_scenario :
    find_matching_bracket_backward ['"', 'f', '(', 'x', ')', '"'] 4 '(' ')' = some 2 ∧
    highlight_matching_brackets [(['"', 'f', '(', 'x', ')', '"'], COLOR_NORMAL)]
        ['"', 'f', '(', 'x', ')', '"'] 4 =
      [(['"', 'f'], COLOR_NORMAL), (['('], COLOR_BRACKET), (['x'], COLOR_NORMAL),
       ([')'], COLOR_BRACKET), (['"'], COLOR_NORMAL)] := by decide

/-- C7: out-of-range navigation-safe edits (`delete_char` with a bad
line or column, `join_lines` with a bad line) leave the document
unchanged without error, while structural edits (`insert_char`,
`insert_newline`) on an out-of-range line fail with the invalid-line
error, leaving the document unchanged (no new state is produced). -/
theorem c7_out_of_range_policy (b : TextBuffer) (ln col : Int) (ch : Char) :
    (¬ (0 ≤ ln ∧ ln < (b.lines.length : Int)) →
      delete_char b ln col = b ∧
      join_lines b ln = b ∧
      insert_char b ln col ch = Except.error (AxiomErr.invalidLine ln) ∧
      insert_newline b ln col = Except.error (AxiomErr.invalidLine ln)) ∧
    (0 ≤ ln → ln < (b.lines.length : Int) →
      ¬ (0 ≤ col ∧ col < ((b.lines.getD ln.toNat []).length : Int)) →
      delete_char b ln col = b) := by
  constructor
  · intro h
    have hj : ¬ (0 ≤ ln ∧ ln < (b.lines.length : Int) - 1) := by omega
    refine ⟨?_, ?_, ?_, ?_⟩
    · unfold delete_char; rw [if_neg h]
    · unfold join_lines; rw [if_neg hj]
    · unfold insert_char; rw [if_neg h]
    · unfold insert_newline; rw [if_neg h]
  · intro h0 hlen hcol
    unfold delete_char
    rw [if_pos ⟨h0, hlen⟩]
    dsimp only
    rw [if_neg hcol]

/-- Witness for C7: a one-line buffer, line 5 (out of range) for the
four operations, and column 99 (out of range) on line 0 for
`delete_char`. -/
theorem c7_out_of_range_policy_witness :
    let b : TextBuffer :=
      { lines := [['h', 'i']], filename := none, encoding := ['u'],
        line_ending := ['\n'], modified := false, total_chars := 2, total_lines := 1 }
    (¬ ((0 : Int) ≤ 5 ∧ (5 : Int) < (b.lines.length : Int))) ∧
    delete_char b 5 0 = b ∧ join_lines b 5 = b ∧
    insert_char b 5 0 'z' = Except.error (AxiomErr.invalidLine 5) ∧
    insert_newline b 5 0 = Except.error (AxiomErr.invalidLine 5) ∧
    delete_char b 0 99 = b := by
  intro b
  have h1 := (c7_out_of_range_policy b 5 0 'z').1 (by decide)
  have h2 := (c7_out_of_range_policy b 5 0 'z').1 (by decide)
  have h3 := (c7_out_of_range_policy b 0 99 'z').2 (by decide) (by decide) (by decide)
  exact ⟨by decide, h1.1, h1.2.1, h2.2.2.1, h2.2.2.2, h3⟩

/-- A buffer is nonempty-line-safe after `insertIdx` if it was before. -/
theorem insertIdx_ne_nil {l : List (List Char)} (h : l ≠ []) (n : Nat) (a : List Char) :
    l.insertIdx n a ≠ [] := by
  by_cases hn : n ≤ l.length
  · have hl := List.length_insertIdx (a := a) n l hn
    intro hcon
    rw [hcon] at hl
    simp at hl
  · rw [List.insertIdx_of_length_lt l a n (by omega)]
    exact h

/-- C8: every Document Store operation — loading any content (including
empty), `insert_char`, `delete_char`, `insert_newline`, `join_lines`,
`replace_all`, `replace_text` — preserves the invariant that the line
sequence is non-empty (an empty buffer being the single empty line). -/
theorem c8_lines_never_empty (b : TextBuffer) (hb : b.lines ≠ [])
    (content old new : List Char) (ln col sc ec : Int) (ch : Char) (cs ww : Bool) :
    (load_from_content b content).lines ≠ [] ∧
    (∀ b', insert_char b ln col ch = Except.ok b' → b'.lines ≠ []) ∧
    (delete_char b ln col).lines ≠ [] ∧
    (∀ b', insert_newline b ln col = Except.ok b' → b'.lines ≠ []) ∧
    (join_lines b ln).lines ≠ [] ∧
    ((replace_all b old new cs ww).2).lines ≠ [] ∧
    (replace_text b old new ln sc ec).lines ≠ [] := by
  refine ⟨?_, ?_, ?_, ?_, ?_, ?_, ?_⟩
  · unfold load_from_content update_stats
    dsimp only
    by_cases hc : content = []
    · simp [hc]
    · rw [if_neg hc]
      by_cases hs : pySplitlines content = []
      · simp [hs]
      · simp [hs]
  · intro b' hok
    unfold insert_char at hok
    by_cases h : 0 ≤ ln ∧ ln < (b.lines.length : Int)
    · rw [if_pos h] at hok
      dsimp only at hok
      cases hok
      unfold update_stats
      dsimp only
      intro hcon
      have := congrArg List.length hcon
      rw [List.length_set] at this
      simp at this
      exact hb this
    · rw [if_neg h] at hok
      cases hok
  · unfold delete_char
    by_cases h : 0 ≤ ln ∧ ln < (b.lines.length : Int)
    · rw [if_pos h]
      dsimp only
      by_cases hcol : 0 ≤ col ∧ col < ((b.lines.getD ln.toNat []).length : Int)
      · rw [if_pos hcol]
        unfold update_stats
        dsimp only
        intro hcon
        have := congrArg List.length hcon
        rw [List.length_set] at this
        simp at this
        exact hb this
      · rw [if_neg hcol]; exact hb
    · rw [if_neg h]; exact hb
  · intro b' hok
    unfold insert_newline at hok
    by_cases h : 0 ≤ ln ∧ ln < (b.lines.length : Int)
    · rw [if_pos h] at hok
      dsimp only at hok
      cases hok
      unfold update_stats
      dsimp only
      apply insertIdx_ne_nil
      intro hcon
      have := congrArg List.length hcon
      rw [List.length_set] at this
      simp at this
      exact hb this
    · rw [if_neg h] at hok
      cases hok
  · unfold join_lines
    by_cases h : 0 ≤ ln ∧ ln < (b.lines.length : Int) - 1
    · rw [if_pos h]
      unfold update_stats
      dsimp only
      intro hcon
      have := congrArg List.length hcon
      rw [List.length_eraseIdx, List.length_set] at this
      simp only [List.length_nil] at this
      have hlen : 2 ≤ b.lines.length := by omega
      by_cases hi : ln.toNat + 1 < b.lines.length <;> simp [hi] at this <;> omega
    · rw [if_neg h]; exact hb
  · unfold replace_all
    dsimp only
    by_cases hcnt :
        0 < (List.map Prod.snd
          (b.lines.map fun line => replace_all_line old new line cs ww)).sum
    · rw [if_pos hcnt]
      unfold update_stats
      dsimp only
      intro hcon
      have := congrArg List.length hcon
      simp at this
      exact hb this
    · rw [if_neg hcnt]
      dsimp only
      intro hcon
      have := congrArg List.length hcon
      simp at this
      exact hb this
  · unfold replace_text
    by_cases h : 0 ≤ ln ∧ ln < (b.lines.length : Int)
    · rw [if_pos h]
      unfold update_stats
      dsimp only
      intro hcon
      have := congrArg List.length hcon
      rw [List.length_set] at this
      simp at this
      exact hb this
    · rw [if_neg h]; exact hb

/-- Witness for C8: the empty-content load and all six mutators on a
concrete two-line buffer. -/
theorem c8_lines_never_empty_witness :
    let b : TextBuffer :=
      { lines := [['a'], ['b']], filename := none, encoding := ['u'],
        line_ending := ['\n'], modified := false, total_chars := 3, total_lines := 2 }
    ([['a'], ['b']] : List (List Char)) ≠ [] ∧
    ((load_from_content b []).lines ≠ [] ∧
     (∀ b', insert_char b 0 1 'z' = Except.ok b' → b'.lines ≠ []) ∧
     (delete_char b 0 1).lines ≠ [] ∧
     (∀ b', insert_newline b 0 1 = Except.ok b' → b'.lines ≠ []) ∧
     (join_lines b 0).lines ≠ [] ∧
     ((replace_all b ['a'] ['c'] true false).2).lines ≠ [] ∧
     (replace_text b ['a'] ['c'] 0 0 1).lines ≠ []) :=
  ⟨by decide, c8_lines_never_empty _ (by decide) [] ['a'] ['c'] 0 1 0 1 'z' true false⟩

/-- C9: after the viewport adjustment, assuming at least one visible row
and at least one visible column (width minus the gutter when line
numbers are shown), the cursor cell lies inside the visible rectangle
and both scroll offsets are non-negative. -/
theorem c9_cursor_in_viewport (s : EditorView)
    (hcx : 0 ≤ s.cursor_x) (hcy : 0 ≤ s.cursor_y)
    (hrows : 1 ≤ s.status_line) (hcols : 1 ≤ visibleWidth s) :
    (ensure_cursor_visible s).scroll_y ≤ s.cursor_y ∧
    s.cursor_y < (ensure_cursor_visible s).scroll_y + s.status_line ∧
    (ensure_cursor_visible s).scroll_x ≤ s.cursor_x ∧
    s.cursor_x < (ensure_cursor_visible s).scroll_x + visibleWidth s ∧
    0 ≤ (ensure_cursor_visible s).scroll_x ∧
    0 ≤ (ensure_cursor_visible s).scroll_y := by
  unfold ensure_cursor_visible
  dsimp only
  rw [max_def, max_def]
  split_ifs <;> refine ⟨?_, ?_, ?_, ?_, ?_, ?_⟩ <;> omega

/-- Witness for C9: a concrete state that needs both a downward and a
rightward scroll. -/
theorem c9_cursor_in_viewport_witness :
    let s : EditorView :=
      { cursor_x := 30, cursor_y := 50, scroll_x := 0, scroll_y := 0,
        width := 25, status_line := 10, show_line_numbers := true }
    (0 : Int) ≤ s.cursor_x ∧ (0 : Int) ≤ s.cursor_y ∧
    (1 : Int) ≤ s.status_line ∧ (1 : Int) ≤ visibleWidth s ∧
    ((ensure_cursor_visible s).scroll_y ≤ s.cursor_y ∧
     s.cursor_y < (ensure_cursor_visible s).scroll_y + s.status_line ∧
     (ensure_cursor_visible s).scroll_x ≤ s.cursor_x ∧
     s.cursor_x < (ensure_cursor_visible s).scroll_x + visibleWidth s ∧
     0 ≤ (ensure_cursor_visible s).scroll_x ∧
     0 ≤ (ensure_cursor_visible s).scroll_y) :=
  ⟨by decide, by decide, by decide, by decide,
   c9_cursor_in_viewport _ (by decide) (by decide) (by decide) (by decide)⟩

/-- C10: the search operations never mutate the document: the buffer
they leave behind is exactly their receiver, so every field — lines,
modified flag, filename, encoding, line ending and statistics — is
unchanged whether or not a match is found (the literal branches
embedded here cannot fail). -/
theorem c10_find_never_mutates (b : TextBuffer) (pat : List Char)
    (start_line start_col : Nat) (cs ww wrap : Bool) :
    (find_text_op b pat start_line start_col cs ww wrap).2 = b ∧
    (find_all_occurrences_op b pat cs ww).2 = b ∧
    (find_text_op b pat start_line start_col cs ww wrap).2.lines = b.lines ∧
    (find_text_op b pat start_line start_col cs ww wrap).2.modified = b.modified ∧
    (find_text_op b pat start_line start_col cs ww wrap).2.filename = b.filename ∧
    (find_text_op b pat start_line start_col cs ww wrap).2.encoding = b.encoding ∧
    (find_text_op b pat start_line start_col cs ww wrap).2.line_ending = b.line_ending ∧
    (find_text_op b pat start_line start_col cs ww wrap).2.total_chars = b.total_chars ∧
    (find_text_op b pat start_line start_col cs ww wrap).2.total_lines = b.total_lines ∧
    (find_all_occurrences_op b pat cs ww).2.lines = b.lines ∧
    (find_all_occurrences_op b pat cs ww).2.modified = b.modified ∧
    (find_all_occurrences_op b pat cs ww).2.total_chars = b.total_chars :=
  ⟨rfl, rfl, rfl, rfl, rfl, rfl, rfl, rfl, rfl, rfl, rfl, rfl⟩

/-- C4 (code bug): with `caseSensitive=false`, `regex=false`,
`wholeWord=true`, `find_text` misses an occurrence of the pattern even
when it appears verbatim: the whole-word branch lowers the pattern but
then matches it against the original line without the ignore-case flag
(the computed `flags` are never passed to `re.finditer`), so nothing is
found on the document `["FOO bar"]` for the pattern `FOO`; the
non-whole-word branch of the same call does lower both sides and finds
`(0, 0, 3)`. -/
theorem c4_whole_word_case_fold_lost :
    let b : TextBuffer :=
      { lines := [['F', 'O', 'O', ' ', 'b', 'a', 'r']], filename := none,
        encoding := ['u'], line_ending := ['\n'], modified := false,
        total_chars := 7, total_lines := 1 }
    (['F', 'O', 'O'].isPrefixOf (b.lines.getD 0 [])) = true ∧
    find_text b ['F', 'O', 'O'] 0 0 false true true = none ∧
    find_text b ['F', 'O', 'O'] 0 0 false false true = some (0, 0, 3) := by decide

/-! ### Unfolding equations for the fuel-indexed scans

The fuel arguments of `countAuxGo`, `ciReplaceGoF` and `slGoF` start at
the length of the scanned list and each step consumes at least one
element, so any fuel at least the list's length computes the same
result; the unfolding equations below recover the natural one-step
recurrences. -/

theorem countAuxGo_irrel (c : Char) (p : List Char) :
    ∀ (n m : Nat) (l : List Char), l.length ≤ n → l.length ≤ m →
      countAuxGo c p n l = countAuxGo c p m l := by
  intro n
  induction n with
  | zero =>
      intro m l h1 _
      have hnil : l = [] := by cases l with | nil => rfl | cons a b => simp at h1
      subst hnil
      cases m <;> rfl
  | succ n ih =>
      intro m l h1 h2
      cases l with
      | nil => cases m <;> rfl
      | cons x t =>
          cases m with
          | zero => simp at h2
          | succ m =>
              simp only [countAuxGo]
              simp only [List.length_cons] at h1 h2
              by_cases hp : (c :: p).isPrefixOf (x :: t) = true
              · rw [if_pos hp, if_pos hp]
                have := ih m (t.drop p.length)
                  (by simp only [List.length_drop]; omega)
                  (by simp only [List.length_drop]; omega)
                omega
              · rw [if_neg hp, if_neg hp]
                exact ih m t (by omega) (by omega)

theorem countAux_cons (c : Char) (p : List Char) (x : Char) (t : List Char) :
    countAux c p (x :: t) =
      if (c :: p).isPrefixOf (x :: t) then 1 + countAux c p (t.drop p.length)
      else countAux c p t := by
  unfold countAux
  simp only [List.length_cons, countAuxGo]
  by_cases hp : (c :: p).isPrefixOf (x :: t) = true
  · rw [if_pos hp, if_pos hp]
    have := countAuxGo_irrel c p t.length (t.drop p.length).length (t.drop p.length)
      (by simp only [List.length_drop]; omega) le_rfl
    omega
  · rw [if_neg hp, if_neg hp]

theorem ciReplaceGoF_irrel (c : Char) (p : List Char) (new : List Char) :
    ∀ (n m : Nat) (l : List Char), l.length ≤ n → l.length ≤ m →
      ciReplaceGoF c p new n l = ciReplaceGoF c p new m l := by
  intro n
  induction n with
  | zero =>
      intro m l h1 _
      have hnil : l = [] := by cases l with | nil => rfl | cons a b => simp at h1
      subst hnil
      cases m <;> rfl
  | succ n ih =>
      intro m l h1 h2
      cases l with
      | nil => cases m <;> rfl
      | cons x t =>
          cases m with
          | zero => simp at h2
          | succ m =>
              simp only [ciReplaceGoF]
              simp only [List.length_cons] at h1 h2
              by_cases hp : (c :: p).isPrefixOf (pyLower (x :: t)) = true
              · rw [if_pos hp, if_pos hp,
                  ih m (t.drop p.length)
                    (by simp only [List.length_drop]; omega)
                    (by simp only [List.length_drop]; omega)]
              · rw [if_neg hp, if_neg hp, ih m t (by omega) (by omega)]

theorem ciReplaceGo_cons (c : Char) (p : List Char) (new : List Char)
    (x : Char) (t : List Char) :
    ciReplaceGo c p new (x :: t) =
      if (c :: p).isPrefixOf (pyLower (x :: t)) then
        (new ++ (ciReplaceGo c p new (t.drop p.length)).1,
         (ciReplaceGo c p new (t.drop p.length)).2 + 1)
      else ((x :: (ciReplaceGo c p new t).1), (ciReplaceGo c p new t).2) := by
  unfold ciReplaceGo
  simp only [List.length_cons, ciReplaceGoF]
  by_cases hp : (c :: p).isPrefixOf (pyLower (x :: t)) = true
  · rw [if_pos hp, if_pos hp,
      ciReplaceGoF_irrel c p new t.length (t.drop p.length).length (t.drop p.length)
        (by simp only [List.length_drop]; omega) le_rfl]
  · rw [if_neg hp, if_neg hp]

theorem slGoF_irrel :
    ∀ (n m : Nat) (s : List Char), s.length ≤ n → s.length ≤ m →
      slGoF n s = slGoF m s := by
  intro n
  induction n with
  | zero =>
      intro m s h1 _
      have hnil : s = [] := by cases s with | nil => rfl | cons a b => simp at h1
      subst hnil
      cases m <;> rfl
  | succ n ih =>
      intro m s h1 h2
      cases s with
      | nil => cases m <;> rfl
      | cons c rest =>
          cases m with
          | zero => simp at h2
          | succ m =>
              simp only [slGoF]
              simp only [List.length_cons] at h1 h2
              by_cases hcr : c = '\r' ∧ rest.head? = some '\n'
              · rw [if_pos hcr, if_pos hcr,
                  ih m rest.tail
                    (by simp only [List.length_tail]; omega)
                    (by simp only [List.length_tail]; omega)]
              · rw [if_neg hcr, if_neg hcr]
                by_cases hbr : c ∈ lineBreakChars
                · rw [if_pos hbr, if_pos hbr, ih m rest (by omega) (by omega)]
                · rw [if_neg hbr, if_neg hbr, ih m rest (by omega) (by omega)]

theorem slGo_cons (c : Char) (rest : List Char) :
    slGo (c :: rest) =
      if c = '\r' ∧ rest.head? = some '\n' then [] :: slGo rest.tail
      else if c ∈ lineBreakChars then [] :: slGo rest
      else
        match slGo rest with
        | [] => [[c]]
        | r :: rs => (c :: r) :: rs := by
  unfold slGo
  simp only [List.length_cons, slGoF]
  by_cases hcr : c = '\r' ∧ rest.head? = some '\n'
  · rw [if_pos hcr, if_pos hcr,
      slGoF_irrel rest.length rest.tail.length rest.tail
        (by simp only [List.length_tail]; omega) le_rfl]
  · rw [if_neg hcr, if_neg hcr]

/-! ### Occurrence-list lemmas for the search/replace count claim -/

theorem isPrefixOf_nil_eq_false {pat : List Char} (h : pat ≠ []) :
    pat.isPrefixOf ([] : List Char) = false := by
  cases pat with
  | nil => exact absurd rfl h
  | cons c p => rfl

theorem allOccs_nil {pat : List Char} (h : pat ≠ []) : allOccs pat [] = [] := by
  unfold allOccs
  rw [isPrefixOf_nil_eq_false h]
  simp

theorem allOccs_cons (pat : List Char) (x : Char) (t : List Char) :
    allOccs pat (x :: t) =
      (if pat.isPrefixOf (x :: t) then [0] else []) ++ (allOccs pat t).map (· + 1) := rfl

theorem allOccs_sorted (pat : List Char) : ∀ l, List.Pairwise (· < ·) (allOccs pat l) := by
  intro l
  induction l with
  | nil =>
      unfold allOccs
      split <;> simp
  | cons x t ih =>
      unfold allOccs
      by_cases h : pat.isPrefixOf (x :: t) = true
      · rw [if_pos h]
        rw [List.singleton_append, List.pairwise_cons]
        constructor
        · intro m hm
          simp only [List.mem_map] at hm
          obtain ⟨a, _, rfl⟩ := hm
          omega
        · rw [List.pairwise_map]
          exact ih.imp (by omega)
      · rw [if_neg h]
        rw [List.nil_append, List.pairwise_map]
        exact ih.imp (by omega)

theorem allOccs_drop {pat : List Char} (hpat : pat ≠ []) :
    ∀ (k : Nat) (t : List Char), (∀ m ∈ allOccs pat t, k ≤ m) →
      allOccs pat (t.drop k) = (allOccs pat t).map (· - k) := by
  intro k
  induction k with
  | zero =>
      intro t _
      simp
  | succ k ih =>
      intro t hall
      cases t with
      | nil =>
          rw [List.drop_nil, allOccs_nil hpat]
          simp
      | cons y s =>
          have hnp : ¬ pat.isPrefixOf (y :: s) = true := by
            intro hc
            have h0 : (0 : Nat) ∈ allOccs pat (y :: s) := by
              unfold allOccs
              rw [if_pos hc]
              simp
            have := hall 0 h0
            omega
          have heq : allOccs pat (y :: s) = (allOccs pat s).map (· + 1) := by
            rw [allOccs_cons, if_neg hnp, List.nil_append]
          have htrans : ∀ m ∈ allOccs pat s, k ≤ m := by
            intro m hm
            have : m + 1 ∈ allOccs pat (y :: s) := by
              rw [heq]
              exact List.mem_map_of_mem _ hm
            have := hall (m + 1) this
            omega
          rw [List.drop_succ_cons, ih s htrans, heq, List.map_map]
          apply List.map_congr_left
          intro m _
          simp only [Function.comp_apply]
          omega

theorem chain_sub {d k : Nat} : ∀ {xs : List Nat}, (∀ m ∈ xs, k ≤ m) →
    List.Chain' (fun a b => a + d ≤ b) xs →
    List.Chain' (fun a b => a + d ≤ b) (xs.map (· - k)) := by
  intro xs
  induction xs with
  | nil => intro _ _; simp
  | cons a ys ih =>
      intro hall hch
      cases ys with
      | nil => simp
      | cons b zs =>
          rw [List.map_cons, List.map_cons, List.chain'_cons]
          rw [List.chain'_cons] at hch
          have hka : k ≤ a := hall a (by simp)
          have hkb : k ≤ b := hall b (by simp)
          refine ⟨by omega, ?_⟩
          have := ih (fun m hm => hall m (by simp [hm])) hch.2
          rw [List.map_cons] at this
          exact this

theorem chain_head_bound {d : Nat} : ∀ {rest : List Nat},
    List.Chain' (fun a b => a + d ≤ b) (0 :: rest) →
    List.Pairwise (· < ·) rest → ∀ y ∈ rest, d ≤ y := by
  intro rest hch hsort y hy
  cases rest with
  | nil => cases hy
  | cons r0 rs =>
      rw [List.chain'_cons] at hch
      have h0 : d ≤ r0 := by have := hch.1; omega
      rcases List.mem_cons.mp hy with rfl | hy'
      · exact h0
      · have := (List.pairwise_cons.mp hsort).1 y hy'
        omega

theorem allOccs_length_eq_countAux (c : Char) (p : List Char) :
    ∀ (n : Nat) (l : List Char), l.length ≤ n →
      List.Chain' (fun i j => i + (p.length + 1) ≤ j) (allOccs (c :: p) l) →
      (allOccs (c :: p) l).length = countAux c p l := by
  intro n
  induction n with
  | zero =>
      intro l hl _
      have hnil : l = [] := List.length_eq_zero.mp (by omega)
      subst hnil
      rw [allOccs_nil (by simp)]
      simp [countAux, countAuxGo]
  | succ n ih =>
      intro l hl hch
      cases l with
      | nil =>
          rw [allOccs_nil (by simp)]
          simp [countAux, countAuxGo]
      | cons x t =>
          by_cases hp : (c :: p).isPrefixOf (x :: t) = true
          · have hocc : allOccs (c :: p) (x :: t) =
                0 :: (allOccs (c :: p) t).map (· + 1) := by
              rw [allOccs_cons, if_pos hp, List.singleton_append]
            have hmap_sorted : List.Pairwise (· < ·)
                ((allOccs (c :: p) t).map (· + 1)) := by
              rw [List.pairwise_map]
              exact (allOccs_sorted _ t).imp (by omega)
            rw [hocc] at hch
            have hall1 := chain_head_bound hch hmap_sorted
            have hall : ∀ m ∈ allOccs (c :: p) t, p.length ≤ m := by
              intro m hm
              have := hall1 (m + 1) (List.mem_map_of_mem _ hm)
              omega
            have hdrop := @allOccs_drop (c :: p) (by simp) p.length t hall
            have hch_t : List.Chain' (fun i j => i + (p.length + 1) ≤ j)
                (allOccs (c :: p) t) := by
              have hrest := hch.tail
              simp only [List.tail_cons] at hrest
              rw [List.chain'_map] at hrest
              exact hrest.imp (fun h => by omega)
            have hch_drop : List.Chain' (fun i j => i + (p.length + 1) ≤ j)
                (allOccs (c :: p) (t.drop p.length)) := by
              rw [hdrop]
              exact chain_sub hall hch_t
            have hlen_t : (t.drop p.length).length ≤ n := by
              simp only [List.length_drop]
              simp only [List.length_cons] at hl
              omega
            have hih := ih (t.drop p.length) hlen_t hch_drop
            have hcnt : countAux c p (x :: t) = 1 + countAux c p (t.drop p.length) := by
              rw [countAux_cons, if_pos hp]
            have hlen_eq : (allOccs (c :: p) (t.drop p.length)).length =
                (allOccs (c :: p) t).length := by
              rw [hdrop, List.length_map]
            rw [hocc, hcnt]
            simp only [List.length_cons, List.length_map]
            omega
          · have hocc : allOccs (c :: p) (x :: t) =
                (allOccs (c :: p) t).map (· + 1) := by
              rw [allOccs_cons, if_neg hp, List.nil_append]
            rw [hocc] at hch ⊢
            have hch_t : List.Chain' (fun i j => i + (p.length + 1) ≤ j)
                (allOccs (c :: p) t) := by
              rw [List.chain'_map] at hch
              exact hch.imp (fun h => by omega)
            have hcnt : countAux c p (x :: t) = countAux c p t := by
              rw [countAux_cons, if_neg hp]
            rw [List.length_map, hcnt]
            exact ih t (by simp only [List.length_cons] at hl; omega) hch_t

theorem allOccs_nil_of_not_contains {pat : List Char} :
    ∀ {l : List Char}, containsSub pat l = false → allOccs pat l = [] := by
  intro l
  induction l with
  | nil =>
      intro h
      unfold containsSub at h
      unfold allOccs
      rw [h]
      simp
  | cons x t ih =>
      intro h
      unfold containsSub at h
      rw [Bool.or_eq_false_iff] at h
      rw [allOccs_cons, h.1, ih h.2]
      simp

theorem ciReplaceGo_snd (c : Char) (p : List Char) (new : List Char) :
    ∀ (n : Nat) (l : List Char), l.length ≤ n →
      (ciReplaceGo c p new l).2 = countAux c p (pyLower l) := by
  intro n
  induction n with
  | zero =>
      intro l hl
      have hnil : l = [] := List.length_eq_zero.mp (by omega)
      subst hnil
      simp [ciReplaceGo, ciReplaceGoF, pyLower, countAux, countAuxGo]
  | succ n ih =>
      intro l hl
      cases l with
      | nil => simp [ciReplaceGo, ciReplaceGoF, pyLower, countAux, countAuxGo]
      | cons x t =>
          have hlow : pyLower (x :: t) = Char.toLower x :: pyLower t := rfl
          have hmd : (pyLower t).drop p.length = pyLower (t.drop p.length) := by
            simp [pyLower, List.map_drop]
          by_cases hp : (c :: p).isPrefixOf (pyLower (x :: t)) = true
          · rw [ciReplaceGo_cons, if_pos hp]
            have hcnt : countAux c p (pyLower (x :: t)) =
                1 + countAux c p ((pyLower t).drop p.length) := by
              rw [hlow, countAux_cons]
              rw [← hlow, if_pos hp]
            rw [hcnt, hmd]
            have hih := ih (t.drop p.length)
              (by simp only [List.length_drop]; simp only [List.length_cons] at hl; omega)
            simp [hih]
            omega
          · rw [ciReplaceGo_cons, if_neg hp]
            have hcnt : countAux c p (pyLower (x :: t)) = countAux c p (pyLower t) := by
              rw [hlow, countAux_cons]
              rw [← hlow, if_neg hp]
            rw [hcnt]
            have hih := ih t (by simp only [List.length_cons] at hl; omega)
            simp [hih]

theorem pyLower_length (l : List Char) : (pyLower l).length = l.length := by
  simp [pyLower]

theorem replace_all_line_count (pat new line : List Char) (cs : Bool) (hpat : pat ≠ [])
    (hch : List.Chain' (fun i j => i + pat.length ≤ j) (lineOccs cs pat line)) :
    (replace_all_line pat new line cs false).2 = (lineOccs cs pat line).length := by
  cases pat with
  | nil => exact absurd rfl hpat
  | cons c p =>
      cases cs with
      | true =>
          simp only [lineOccs, if_pos rfl] at hch ⊢
          unfold replace_all_line
          simp only [Bool.false_eq_true, if_false, if_pos rfl]
          by_cases hcon : containsSub (c :: p) line = true
          · rw [if_pos hcon]
            simp only [pyCount]
            exact (allOccs_length_eq_countAux c p line.length line le_rfl
              (by simpa using hch)).symm
          · rw [if_neg hcon]
            rw [allOccs_nil_of_not_contains (Bool.not_eq_true _ ▸ hcon)]
            rfl
      | false =>
          simp only [lineOccs] at hch ⊢
          rw [if_neg (by simp), if_neg (by simp)] at hch ⊢
          unfold replace_all_line
          simp only [Bool.false_eq_true, if_false]
          unfold ciReplaceLine
          have hlp : pyLower (c :: p) = Char.toLower c :: pyLower p := rfl
          rw [hlp]
          rw [ciReplaceGo_snd (Char.toLower c) (pyLower p) new line.length line le_rfl]
          rw [← hlp]
          refine (allOccs_length_eq_countAux (Char.toLower c) (pyLower p)
            (pyLower line).length (pyLower line) le_rfl ?_).symm
          have hlen2 : (pyLower p).length + 1 = (c :: p).length := by
            rw [pyLower_length]; rfl
          rw [hlen2]
          exact hch

theorem chainGap_iff (d : Nat) : ∀ (xs : List Nat),
    chainGap d xs = true ↔ List.Chain' (fun a b => a + d ≤ b) xs := by
  intro xs
  induction xs with
  | nil => simp [chainGap]
  | cons a ys ih =>
      cases ys with
      | nil => simp [chainGap]
      | cons b zs =>
          rw [List.chain'_cons, ← ih]
          simp [chainGap]

theorem find_all_line_length (pat line : List Char) (cs : Bool) :
    (find_all_line pat line cs false).length = (lineOccs cs pat line).length := by
  unfold find_all_line lineOccs
  simp only [Bool.false_eq_true, if_false]
  cases cs <;> simp

theorem find_all_go_count (pat new : List Char) (cs : Bool) (hpat : pat ≠ []) :
    ∀ (lines : List (List Char)) (n : Nat),
      (∀ line ∈ lines,
        List.Chain' (fun i j => i + pat.length ≤ j) (lineOccs cs pat line)) →
      (find_all_go pat cs false lines n).length =
        ((lines.map fun line => replace_all_line pat new line cs false).map
          Prod.snd).sum := by
  intro lines
  induction lines with
  | nil =>
      intro n _
      simp [find_all_go]
  | cons line rest ih =>
      intro n hall
      simp only [find_all_go, List.length_append, List.length_map, List.map_cons,
        List.sum_cons]
      rw [replace_all_line_count pat new line cs hpat (hall line (by simp))]
      rw [ih (n + 1) (fun l hl => hall l (by simp [hl]))]
      rw [find_all_line_length]

theorem find_all_go_fst_ge (pat : List Char) (cs ww : Bool) :
    ∀ (lines : List (List Char)) (n : Nat) (x : Nat × Nat × Nat),
      x ∈ find_all_go pat cs ww lines n → n ≤ x.1 := by
  intro lines
  induction lines with
  | nil =>
      intro n x hx
      simp [find_all_go] at hx
  | cons line rest ih =>
      intro n x hx
      simp only [find_all_go, List.mem_append, List.mem_map] at hx
      rcases hx with ⟨m, _, rfl⟩ | hx
      · exact le_rfl
      · have := ih (n + 1) x hx
        omega

theorem find_all_go_pairwise (pat : List Char) (cs : Bool) :
    ∀ (lines : List (List Char)) (n : Nat),
      List.Pairwise posLt (find_all_go pat cs false lines n) := by
  intro lines
  induction lines with
  | nil =>
      intro n
      simp [find_all_go]
  | cons line rest ih =>
      intro n
      simp only [find_all_go]
      rw [List.pairwise_append]
      refine ⟨?_, ih (n + 1), ?_⟩
      · rw [List.pairwise_map]
        unfold find_all_line
        simp only [Bool.false_eq_true, if_false]
        rw [List.pairwise_map]
        apply (allOccs_sorted _ _).imp
        intro a b h
        exact Or.inr ⟨rfl, h⟩
      · intro a ha b hb
        have hb1 := find_all_go_fst_ge pat cs false rest (n + 1) b hb
        simp only [List.mem_map] at ha
        obtain ⟨m, _, rfl⟩ := ha
        exact Or.inl (by omega)

/-- C1 counterexample: on the document `["aaa"]` with the pattern `aa`
(case-sensitive literal search, no whole-word), `find_all_occurrences`
reports two matches — it restarts one character after each match start,
so the overlapping occurrences at columns 0 and 1 are both returned —
while `replace_all` with the same options performs exactly one
(non-overlapping) replacement, whatever the replacement text (here the
pattern itself). -/
theorem c1_count_counterexample :
    let b : TextBuffer :=
      { lines := [['a', 'a', 'a']], filename := none, encoding := ['u'],
        line_ending := ['\n'], modified := false, total_chars := 3, total_lines := 1 }
    (find_all_occurrences b ['a', 'a'] true false).length ≠
      (replace_all b ['a', 'a'] ['a', 'a'] true false).1 := by decide

/-- C1 (amended): for literal non-whole-word searches with a nonempty
pattern, `find_all_occurrences` enumerates every match position —
including overlapping ones, since the scan restarts one character past
each match start — in strict line-then-column order, and `replace_all`
counts the non-overlapping replacements; the two counts coincide,
regardless of the replacement text, whenever no two occurrences of the
pattern overlap within any line (the `Chain'` hypothesis on each line's
occurrence positions). -/
theorem c1_find_all_count_eq_replace_count (b : TextBuffer) (pat new : List Char)
    (cs : Bool) (hpat : pat ≠ [])
    (hno : ∀ line ∈ b.lines, chainGap pat.length (lineOccs cs pat line) = true) :
    (find_all_occurrences b pat cs false).length = (replace_all b pat new cs false).1 ∧
    List.Pairwise posLt (find_all_occurrences b pat cs false) := by
  have hno' : ∀ line ∈ b.lines,
      List.Chain' (fun i j => i + pat.length ≤ j) (lineOccs cs pat line) :=
    fun line hl => (chainGap_iff pat.length _).mp (hno line hl)
  constructor
  · unfold find_all_occurrences replace_all
    dsimp only
    exact find_all_go_count pat new cs hpat b.lines 0 hno'
  · exact find_all_go_pairwise pat cs b.lines 0

/-- Witness for C1 (amended): the document `["ab ab", "xABx"]` with
pattern `ab`, case-insensitive: two non-overlapping matches on line 0,
one on line 1; `replace_all` with replacement `zz` also counts three. -/
theorem c1_find_all_count_eq_replace_count_witness :
    let b : TextBuffer :=
      { lines := [['a', 'b', ' ', 'a', 'b'], ['x', 'A', 'B', 'x']], filename := none,
        encoding := ['u'], line_ending := ['\n'], modified := false,
        total_chars := 10, total_lines := 2 }
    (['a', 'b'] : List Char) ≠ [] ∧
    (∀ line ∈ b.lines,
      chainGap (['a', 'b'] : List Char).length (lineOccs false ['a', 'b'] line) = true) ∧
    ((find_all_occurrences b ['a', 'b'] false false).length =
      (replace_all b ['a', 'b'] ['z', 'z'] false false).1 ∧
     List.Pairwise posLt (find_all_occurrences b ['a', 'b'] false false)) :=
  ⟨by decide, by decide,
   c1_find_all_count_eq_replace_count _ ['a', 'b'] ['z', 'z'] false (by decide)
     (by decide)⟩

/-! ### Splitlines / line-ending lemmas for the save-load round trip -/

theorem slGo_ne_nil : ∀ (n : Nat) (s : List Char), slGoF n s ≠ [] := by
  intro n
  induction n with
  | zero => intro s; cases s <;> simp [slGoF]
  | succ n ih =>
      intro s
      cases s with
      | nil => simp [slGoF]
      | cons c rest =>
          simp only [slGoF]
          split_ifs
          · simp
          · simp
          · split <;> simp

theorem slGo_clean_append {l : List Char} (hclean : ∀ c ∈ l, c ∉ lineBreakChars) :
    ∀ {rest : List Char} {r : List Char} {rs : List (List Char)},
      slGo rest = r :: rs → slGo (l ++ rest) = (l ++ r) :: rs := by
  induction l with
  | nil =>
      intro rest r rs h
      simpa using h
  | cons c l' ih =>
      intro rest r rs h
      have hc : c ∉ lineBreakChars := hclean c (by simp)
      have hcr : ¬ (c = '\r' ∧ (l' ++ rest).head? = some '\n') := by
        rintro ⟨rfl, -⟩
        exact hc (by decide)
      rw [List.cons_append, slGo_cons, if_neg hcr, if_neg hc]
      rw [ih (fun x hx => hclean x (by simp [hx])) h]
      rfl

theorem slGo_sep_lf (rest : List Char) : slGo ('\n' :: rest) = [] :: slGo rest := by
  rw [slGo_cons]
  rw [if_neg (show ¬ ('\n' = '\r' ∧ rest.head? = some '\n') by simp)]
  rw [if_pos (show ('\n' : Char) ∈ lineBreakChars by decide)]

theorem slGo_sep_crlf (rest : List Char) :
    slGo ('\r' :: '\n' :: rest) = [] :: slGo rest := by
  rw [slGo_cons, if_pos (by simp)]
  rw [List.tail_cons]

theorem slGo_sep_cr {rest : List Char} (h : rest.head? ≠ some '\n') :
    slGo ('\r' :: rest) = [] :: slGo rest := by
  rw [slGo_cons]
  rw [if_neg (show ¬ ('\r' = '\r' ∧ rest.head? = some '\n') by simp [h])]
  rw [if_pos (show ('\r' : Char) ∈ lineBreakChars by decide)]

theorem mem_pyJoin {sep : List Char} :
    ∀ {L : List (List Char)} {x : Char}, x ∈ pyJoin sep L →
      x ∈ sep ∨ ∃ l ∈ L, x ∈ l := by
  intro L
  induction L with
  | nil =>
      intro x hx
      simp [pyJoin] at hx
  | cons l L' ih =>
      intro x hx
      cases L' with
      | nil =>
          simp only [pyJoin] at hx
          exact Or.inr ⟨l, by simp, hx⟩
      | cons l₂ L'' =>
          simp only [pyJoin, List.mem_append] at hx
          rcases hx with (hx | hx) | hx
          · exact Or.inr ⟨l, by simp, hx⟩
          · exact Or.inl hx
          · rcases ih hx with h | ⟨m, hm, hxm⟩
            · exact Or.inl h
            · exact Or.inr ⟨m, by simp [hm], hxm⟩

theorem slGo_pyJoin {sep : List Char}
    (hsep : sep = ['\n'] ∨ sep = ['\r', '\n'] ∨ sep = ['\r']) :
    ∀ (L : List (List Char)), L ≠ [] →
      (∀ l ∈ L, ∀ c ∈ l, c ∉ lineBreakChars) →
      slGo (pyJoin sep L) = L := by
  intro L
  induction L with
  | nil => intro h _; exact absurd rfl h
  | cons l L' ih =>
      intro _ hclean
      cases L' with
      | nil =>
          simp only [pyJoin]
          have h0 : slGo ([] : List Char) = [] :: [] := rfl
          have := slGo_clean_append (hclean l (by simp)) h0
          simpa using this
      | cons l₂ L'' =>
          simp only [pyJoin]
          have hstep : slGo (sep ++ pyJoin sep (l₂ :: L'')) =
              [] :: slGo (pyJoin sep (l₂ :: L'')) := by
            rcases hsep with rfl | rfl | rfl
            · simp only [List.singleton_append]
              exact slGo_sep_lf _
            · simp only [List.cons_append, List.singleton_append]
              exact slGo_sep_crlf _
            · simp only [List.singleton_append]
              refine slGo_sep_cr ?_
              intro hhead
              have hmem : '\n' ∈ pyJoin ['\r'] (l₂ :: L'') :=
                List.mem_of_mem_head? (by rw [hhead]; rfl)
              rcases mem_pyJoin hmem with h | ⟨m, hm, hxm⟩
              · simp at h
              · exact hclean m (by simp [hm]) '\n' hxm (by decide)
          have hrec := ih (by simp) (fun m hm => hclean m (by simp [hm]))
          have hsr : slGo (sep ++ pyJoin sep (l₂ :: L'')) = [] :: (l₂ :: L'') := by
            rw [hstep, hrec]
          have hfin := slGo_clean_append (hclean l (by simp)) hsr
          simpa using hfin

theorem containsCRLF_append_crlf : ∀ (a b : List Char),
    containsCRLF (a ++ '\r' :: '\n' :: b) = true := by
  intro a b
  induction a with
  | nil => simp [containsCRLF]
  | cons x a' ih => simp [containsCRLF, ih]

theorem containsCRLF_eq_false_of_no_cr : ∀ {content : List Char},
    '\r' ∉ content → containsCRLF content = false := by
  intro content
  induction content with
  | nil => intro _; rfl
  | cons c t ih =>
      intro h
      have hc : ¬ c = '\r' := fun hh => h (by simp [hh])
      simp only [containsCRLF, Bool.or_eq_false_iff]
      exact ⟨by simp [hc], ih (fun hh => h (by simp [hh]))⟩

theorem containsCRLF_eq_false_of_no_lf : ∀ {content : List Char},
    '\n' ∉ content → containsCRLF content = false := by
  intro content
  induction content with
  | nil => intro _; rfl
  | cons c t ih =>
      intro h
      have hh : ¬ t.head? = some '\n' := by
        intro hhead
        exact h (List.mem_cons_of_mem c (List.mem_of_mem_head? (by rw [hhead]; rfl)))
      simp only [containsCRLF, Bool.or_eq_false_iff]
      exact ⟨by simp [hh], ih (fun hn => h (by simp [hn]))⟩

theorem contains_eq_false_of_not_mem {l : List Char} {c : Char} (h : c ∉ l) :
    l.contains c = false := by
  simpa using h

theorem contains_eq_true_of_mem {l : List Char} {c : Char} (h : c ∈ l) :
    l.contains c = true := by
  simpa using h

theorem slGo_clean (l : List Char) (h : ∀ c ∈ l, c ∉ lineBreakChars) :
    slGo l = [l] := by
  have h0 : slGo ([] : List Char) = [] :: [] := rfl
  have := slGo_clean_append h h0
  simpa using this

theorem load_from_content_lines (b : TextBuffer) (content : List Char) :
    (load_from_content b content).lines =
      if content = [] then [[]]
      else if pySplitlines content = [] then [[]] else pySplitlines content := by
  simp only [load_from_content, update_stats]

theorem load_from_content_line_ending (b : TextBuffer) (content : List Char) :
    (load_from_content b content).line_ending = detect_line_endings content := by
  simp only [load_from_content, update_stats]

/-- C2 counterexample: the round trip fails on the code in two ways.  A
one-line document with CRLF line ending writes no separator, so the
reload detects LF instead of CRLF; and a document whose last line is
empty writes content ending in a separator, which `splitlines` does not
turn back into a trailing empty line. -/
theorem c2_round_trip_counterexample :
    (save_load
      { lines := [['a', 'b', 'c']], filename := none, encoding := ['u'],
        line_ending := ['\r', '\n'], modified := false, total_chars := 3,
        total_lines := 1 }).line_ending ≠ ['\r', '\n'] ∧
    (save_load
      { lines := [['a'], []], filename := none, encoding := ['u'],
        line_ending := ['\n'], modified := false, total_chars := 2,
        total_lines := 2 }).lines ≠ [['a'], []] := by decide

/-- C2 (amended): for every document whose lines contain no line
terminator and whose line ending is LF, CRLF or CR, saving and then
loading the written content yields the same lines and the same detected
line ending, provided the written content actually exhibits the line
ending (the document has at least two lines, or uses LF) and no trailing
empty line is lost (the last line is nonempty, or the document is a
single line). -/
theorem c2_save_load_round_trip (b : TextBuffer)
    (hclean : ∀ l ∈ b.lines, ∀ c ∈ l, c ∉ lineBreakChars)
    (hle : b.line_ending = ['\n'] ∨ b.line_ending = ['\r', '\n'] ∨
      b.line_ending = ['\r'])
    (hne : b.lines ≠ [])
    (hmulti : 2 ≤ b.lines.length ∨ b.line_ending = ['\n'])
    (hlast : b.lines.getLast? ≠ some [] ∨ b.lines.length = 1) :
    (save_load b).lines = b.lines ∧ (save_load b).line_ending = b.line_ending := by
  unfold save_load save_content
  rw [load_from_content_lines, load_from_content_line_ending]
  rcases hlines : b.lines with _ | ⟨l, L⟩
  · exact absurd hlines hne
  rcases L with _ | ⟨l₂, L'⟩
  · -- single-line document: the line ending must be LF
    have hle1 : b.line_ending = ['\n'] := by
      rcases hmulti with h2 | h
      · rw [hlines] at h2; simp at h2
      · exact h
    rw [hle1]
    have hcl : ∀ c ∈ l, c ∉ lineBreakChars := hclean l (by rw [hlines]; simp)
    by_cases hl0 : l = []
    · subst hl0
      refine ⟨by simp [pyJoin], by simp [pyJoin, detect_line_endings, containsCRLF]⟩
    · have hj : pyJoin ['\n'] [l] = l := rfl
      rw [hj]
      have hnr : '\r' ∉ l := fun hr => hcl '\r' hr (by decide)
      have hsplit : pySplitlines l = [l] := by
        unfold pySplitlines
        rw [slGo_clean l hcl]
        have : ([l].getLast? = some ([] : List Char)) = False := by
          simp [List.getLast?, hl0]
        simp only [this, if_false]
      constructor
      · rw [if_neg hl0, hsplit]
        simp
      · unfold detect_line_endings
        rw [containsCRLF_eq_false_of_no_cr hnr, contains_eq_false_of_not_mem hnr]
        simp
  · -- at least two lines
    have hclean' : ∀ m ∈ l :: l₂ :: L', ∀ c ∈ m, c ∉ lineBreakChars := by
      rw [← hlines]; exact hclean
    have hlast' : (l :: l₂ :: L').getLast? ≠ some [] := by
      rcases hlast with h | h
      · rw [hlines] at h; exact h
      · rw [hlines] at h; simp at h
    have hG : slGo (pyJoin b.line_ending (l :: l₂ :: L')) = l :: l₂ :: L' :=
      slGo_pyJoin hle (l :: l₂ :: L') (by simp) hclean'
    have hcne : pyJoin b.line_ending (l :: l₂ :: L') ≠ [] := by
      intro h0
      rcases hle with hrw | hrw | hrw <;>
        · rw [hrw] at h0
          simp only [pyJoin] at h0
          simp at h0
    have hsplit : pySplitlines (pyJoin b.line_ending (l :: l₂ :: L')) =
        l :: l₂ :: L' := by
      unfold pySplitlines
      rw [hG, if_neg hlast']
    refine ⟨?_, ?_⟩
    · rw [if_neg hcne, hsplit]
      simp
    · rcases hle with hrw | hrw | hrw <;> rw [hrw]
      · have hnr : '\r' ∉ pyJoin ['\n'] (l :: l₂ :: L') := by
          intro hmem
          rcases mem_pyJoin hmem with h | ⟨m, hm, hc⟩
          · simp at h
          · exact hclean' m hm '\r' hc (by decide)
        unfold detect_line_endings
        rw [containsCRLF_eq_false_of_no_cr hnr, contains_eq_false_of_not_mem hnr]
        simp
      · have hcr : containsCRLF (pyJoin ['\r', '\n'] (l :: l₂ :: L')) = true := by
          have := containsCRLF_append_crlf l (pyJoin ['\r', '\n'] (l₂ :: L'))
          simpa [pyJoin] using this
        unfold detect_line_endings
        rw [hcr]
        simp
      · have hnl : '\n' ∉ pyJoin ['\r'] (l :: l₂ :: L') := by
          intro hmem
          rcases mem_pyJoin hmem with h | ⟨m, hm, hc⟩
          · simp at h
          · exact hclean' m hm '\n' hc (by decide)
        have hr : '\r' ∈ pyJoin ['\r'] (l :: l₂ :: L') := by
          show '\r' ∈ l ++ ['\r'] ++ pyJoin ['\r'] (l₂ :: L')
          simp
        unfold detect_line_endings
        rw [containsCRLF_eq_false_of_no_lf hnl, contains_eq_true_of_mem hr]
        simp

/-- Witness for C2 (amended): a two-line CRLF document round-trips. -/
theorem c2_save_load_round_trip_witness :
    let b : TextBuffer :=
      { lines := [['a'], ['b', 'c']], filename := none, encoding := ['u'],
        line_ending := ['\r', '\n'], modified := false, total_chars := 4,
        total_lines := 2 }
    (∀ l ∈ b.lines, ∀ c ∈ l, c ∉ lineBreakChars) ∧
    (b.line_ending = ['\n'] ∨ b.line_ending = ['\r', '\n'] ∨
      b.line_ending = ['\r']) ∧
    b.lines ≠ [] ∧ (2 ≤ b.lines.length ∨ b.line_ending = ['\n']) ∧
    (b.lines.getLast? ≠ some [] ∨ b.lines.length = 1) ∧
    ((save_load b).lines = b.lines ∧ (save_load b).line_ending = b.line_ending) :=
  ⟨by decide, by decide, by decide, by decide, by decide,
   c2_save_load_round_trip _ (by decide) (by decide) (by decide) (by decide)
     (by decide)⟩
